import Mathlib

/-!
Secret Santa matcher: embedding of `main.go`.

The matching core of the program is embedded as Lean functions over lists:

* `Participant`, `canDraw`, `isValidDraw` : the validity check of a candidate draw;
* `swap`, `randShuffle`, `shuffle`         : the in-place shuffle of the candidate;
* `copySlice`, `makeSlice`, `secretSantaLoop` : the generate-and-test loop of `secretSanta`.

A Go slice is a `List`; an index that is out of range makes the Go program panic, which
the embedding records as `none` (or `LoopResult.crashed`).  The random source is a stream
of raw draws `Nat → Nat` together with a cursor that counts the draws consumed so far.
-/

namespace SecretSanta

/-! ## Data model -/

/-- Go `type Participant struct { Name, Email string; CannotDraw []string }`. -/
structure Participant where
  Name : String
  Email : String
  CannotDraw : List String
  deriving DecidableEq, Repr

/-- The zero value of `Participant`, as produced by `make([]Participant, n)`. -/
def Participant.zero : Participant :=
  { Name := "", Email := "", CannotDraw := [] }

/-! ## Validity check -/

/-- Go `canDraw(participant, drawn)`: false exactly when `slices.Contains(drawn.CannotDraw,
participant.Name)`. -/
def canDraw (participant drawn : Participant) : Bool :=
  if drawn.CannotDraw.contains participant.Name then false else true

/-- The inner `for j := range participants` loop of `isValidDraw` at outer index `i`, run
over the remaining indices `js`.  Result `some true`: the loop hit its `return false`
(a reciprocal pair was found); `some false`: the loop ran to its end; `none`: an index was
out of range.  The right operand of `&&` is evaluated only when the left one is true. -/
def reciprocityLoop (participants shuffled : List Participant) (i : Nat) :
    List Nat → Option Bool
  | [] => some false
  | j :: js =>
    match participants[i]?, shuffled[j]? with
    | some pi, some sj =>
      if pi.Name = sj.Name then
        match participants[j]?, shuffled[i]? with
        | some pj, some si =>
          if pj.Name = si.Name then some true
          else reciprocityLoop participants shuffled i js
        | _, _ => none
      else reciprocityLoop participants shuffled i js
    | _, _ => none

/-- The outer `for i := range participants` loop of `isValidDraw`, run over the remaining
indices `is`.  `some b` is the returned boolean, `none` an index out of range. -/
def isValidDrawFrom (participants shuffled : List Participant) : List Nat → Option Bool
  | [] => some true
  | i :: is =>
    match participants[i]?, shuffled[i]? with
    | some p, some s =>
      if p.Name = s.Name ∨ canDraw p s = false then some false
      else
        match reciprocityLoop participants shuffled i (List.range participants.length) with
        | none => none
        | some true => some false
        | some false => isValidDrawFrom participants shuffled is
    | _, _ => none

/-- Go `isValidDraw(participants, shuffled)`. -/
def isValidDraw (participants shuffled : List Participant) : Option Bool :=
  isValidDrawFrom participants shuffled (List.range participants.length)

/-! ## Shuffle -/

/-- The closure passed to `rand.Shuffle`: `slice[i], slice[j] = slice[j], slice[i]`. -/
def swap (slice : List Participant) (i j : Nat) : Option (List Participant) :=
  match slice[i]?, slice[j]? with
  | some a, some b => some ((slice.set i b).set j a)
  | _, _ => none

/-- Modelled from the spec: `math/rand.Shuffle` is library code, not part of the repository.
It is the Fisher–Yates shuffle the spec names: for `i` from `n - 1` down to `1` it draws
`j` in `[0, i]` from the random source and calls `swap(i, j)`.  The argument `i` is the
current upper index, `src` the stream of raw draws and `k` the cursor into it; the result
is the shuffled slice and the advanced cursor. -/
def randShuffle (src : Nat → Nat) : Nat → Nat → List Participant →
    Option (List Participant × Nat)
  | 0, k, slice => some (slice, k)
  | i + 1, k, slice =>
    match swap slice (i + 1) (src k % (i + 2)) with
    | none => none
    | some slice1 => randShuffle src i (k + 1) slice1

/-- Go `shuffle(slice)`: `rand.Shuffle(len(slice), swap)`. -/
def shuffle (src : Nat → Nat) (k : Nat) (slice : List Participant) :
    Option (List Participant × Nat) :=
  randShuffle src (slice.length - 1) k slice

/-- The effect on the slice of an arbitrary sequence of calls `swap(i, j)` of the closure
that `shuffle` hands to `rand.Shuffle`, whatever index pairs the library chooses. -/
def runSwaps : List Participant → List (Nat × Nat) → Option (List Participant)
  | slice, [] => some slice
  | slice, (i, j) :: calls =>
    match swap slice i j with
    | none => none
    | some slice1 => runSwaps slice1 calls

/-! ## The generate-and-test loop of `secretSanta` -/

/-- Go `make([]Participant, n)`. -/
def makeSlice (n : Nat) : List Participant :=
  List.replicate n Participant.zero

/-- Go `copy(dst, src)`: the first `min(len(dst), len(src))` elements of `dst` are
overwritten by those of `src`. -/
def copySlice (dst src : List Participant) : List Participant :=
  src.take (min dst.length src.length) ++ dst.drop (min dst.length src.length)

/-- Outcome of running the matching loop of `secretSanta` for a bounded number of
iterations. -/
inductive LoopResult where
  /-- the loop left through `break` with this content of `shuffled` -/
  | drawn (shuffled : List Participant)
  /-- a runtime panic (index out of range) -/
  | crashed
  /-- the loop is still running after the given number of iterations -/
  | running
  deriving DecidableEq, Repr

/-- The `for { copy; shuffle; if isValidDraw { break } }` loop of `secretSanta`, run for at
most `fuel` iterations from cursor `k` of the random source and the current content of
`shuffled`. -/
def secretSantaLoop (participants : List Participant) (src : Nat → Nat) :
    Nat → Nat → List Participant → LoopResult
  | 0, _, _ => LoopResult.running
  | fuel + 1, k, shuffled =>
    match shuffle src k (copySlice shuffled participants) with
    | none => LoopResult.crashed
    | some (shuffled1, k1) =>
      match isValidDraw participants shuffled1 with
      | none => LoopResult.crashed
      | some true => LoopResult.drawn shuffled1
      | some false => secretSantaLoop participants src fuel k1 shuffled1

/-- The matching part of Go `secretSanta(participants, ...)`: `n := len(participants)`,
`shuffled := make([]Participant, n)`, then the loop. -/
def secretSantaDraw (participants : List Participant) (src : Nat → Nat) (fuel : Nat) :
    LoopResult :=
  secretSantaLoop participants src fuel 0 (makeSlice participants.length)

/-! ## Concrete participants used in the examples -/

/-- Participant without exclusions. -/
def alice : Participant := { Name := "Alice", Email := "alice@example.org", CannotDraw := [] }

/-- Participant without exclusions. -/
def bob : Participant := { Name := "Bob", Email := "bob@example.org", CannotDraw := [] }

/-- Participant without exclusions. -/
def carol : Participant := { Name := "Carol", Email := "carol@example.org", CannotDraw := [] }

/-- Alice, whose exclusion list holds Bob. -/
def aliceNoBob : Participant :=
  { Name := "Alice", Email := "alice@example.org", CannotDraw := ["Bob"] }

/-- Bob, whose exclusion list holds Alice. -/
def bobNoAlice : Participant :=
  { Name := "Bob", Email := "bob@example.org", CannotDraw := ["Alice"] }

/-! ## The invariants of the data model, as the specification words them -/

/-- Specification, data model, first invariant: for all `i`, `S[i].Name != P[i].Name`.
Position `i` of `P.zip S` is the pair `(P[i], S[i])`. -/
def specNoSelfDraw (P S : List Participant) : Bool :=
  (P.zip S).all fun ps => decide (ps.2.Name ≠ ps.1.Name)

/-- Specification, data model, second invariant: for all `i`, `S[i].Name` is not in
`P[i].CannotDraw`. -/
def specExclusionRespected (P S : List Participant) : Bool :=
  (P.zip S).all fun ps => decide (ps.2.Name ∉ ps.1.CannotDraw)

/-- Specification, data model, third invariant: for all `i`, `j`, not both
`P[i].Name == S[j].Name` and `P[j].Name == S[i].Name`. -/
def specNoReciprocalPair (P S : List Participant) : Bool :=
  (P.zip S).all fun pi => (P.zip S).all fun pj =>
    decide (¬ (pi.1.Name = pj.2.Name ∧ pj.1.Name = pi.2.Name))

/-- The three invariants of the specification together. -/
def specInvariants (P S : List Participant) : Bool :=
  specNoSelfDraw P S && specExclusionRespected P S && specNoReciprocalPair P S

/-! ## Lemmas on the validity check -/

theorem reciprocityLoop_false {P S : List Participant} {i : Nat} :
    ∀ {js : List Nat}, reciprocityLoop P S i js = some false →
      ∀ j ∈ js, ∀ pi sj pj si, P[i]? = some pi → S[j]? = some sj → P[j]? = some pj →
        S[i]? = some si → ¬ (pi.Name = sj.Name ∧ pj.Name = si.Name) := by
  intro js
  induction js with
  | nil => intro _ j hj; simp at hj
  | cons j0 js ih =>
    intro h j hj pi sj pj si hpi hsj hpj hsi
    rw [reciprocityLoop] at h
    rcases List.mem_cons.mp hj with rfl | hmem
    · simp only [hpi, hsj, hpj, hsi] at h
      rintro ⟨h1, h2⟩
      simp [h1, h2] at h
    · cases hp : P[i]? with
      | none => simp [hp] at h
      | some pi0 =>
        cases hs : S[j0]? with
        | none => simp [hp, hs] at h
        | some sj0 =>
          simp only [hp, hs] at h
          by_cases hn : pi0.Name = sj0.Name
          · simp only [hn, if_true] at h
            cases hp2 : P[j0]? with
            | none => simp [hp2] at h
            | some pj0 =>
              cases hs2 : S[i]? with
              | none => simp [hp2, hs2] at h
              | some si0 =>
                simp only [hp2, hs2] at h
                by_cases hn2 : pj0.Name = si0.Name
                · simp [hn2] at h
                · simp only [hn2, if_false] at h
                  exact ih h j hmem pi sj pj si hpi hsj hpj hsi
          · simp only [hn, if_false] at h
            exact ih h j hmem pi sj pj si hpi hsj hpj hsi

theorem isValidDrawFrom_true {P S : List Participant} :
    ∀ {is : List Nat}, isValidDrawFrom P S is = some true →
      ∀ i ∈ is, ∃ p s, P[i]? = some p ∧ S[i]? = some s ∧ p.Name ≠ s.Name ∧
        canDraw p s = true ∧
        reciprocityLoop P S i (List.range P.length) = some false := by
  intro is
  induction is with
  | nil => intro _ i hi; simp at hi
  | cons i0 is ih =>
    intro h i hi
    rw [isValidDrawFrom] at h
    cases hp : P[i0]? with
    | none => simp [hp] at h
    | some p0 =>
      cases hs : S[i0]? with
      | none => simp [hp, hs] at h
      | some s0 =>
        simp only [hp, hs] at h
        by_cases hc : p0.Name = s0.Name ∨ canDraw p0 s0 = false
        · simp [hc] at h
        · simp only [hc, if_false] at h
          cases hr : reciprocityLoop P S i0 (List.range P.length) with
          | none => simp [hr] at h
          | some b =>
            cases b with
            | true => simp [hr] at h
            | false =>
              simp only [hr] at h
              rcases List.mem_cons.mp hi with rfl | hmem
              · refine ⟨p0, s0, hp, hs, ?_, ?_, hr⟩
                · exact fun hn => hc (Or.inl hn)
                · cases hcd : canDraw p0 s0 with
                  | true => rfl
                  | false => exact absurd (Or.inr hcd) hc
              · exact ih h i hmem

/-- What an accepting run of `isValidDraw` has checked at every position. -/
theorem isValidDraw_true {P S : List Participant} (h : isValidDraw P S = some true)
    {i : Nat} (hi : i < P.length) :
    ∃ p s, P[i]? = some p ∧ S[i]? = some s ∧ p.Name ≠ s.Name ∧ canDraw p s = true ∧
      ∀ (j : Nat) (pj sj : Participant), P[j]? = some pj → S[j]? = some sj →
        ¬ (p.Name = sj.Name ∧ pj.Name = s.Name) := by
  obtain ⟨p, s, hp, hs, hne, hcd, hr⟩ := isValidDrawFrom_true h i (List.mem_range.mpr hi)
  refine ⟨p, s, hp, hs, hne, hcd, ?_⟩
  intro j pj sj hpj hsj
  have hj : j < P.length := by
    rcases Nat.lt_or_ge j P.length with hlt | hge
    · exact hlt
    · rw [List.getElem?_eq_none hge] at hpj; cases hpj
  exact reciprocityLoop_false hr j (List.mem_range.mpr hj) p sj pj s hp hsj hpj hs

theorem reciprocityLoop_total {P S : List Participant} {i : Nat} (hi : i < P.length)
    (hlen : P.length ≤ S.length) :
    ∀ {js : List Nat}, (∀ j ∈ js, j < P.length) →
      ∃ b, reciprocityLoop P S i js = some b := by
  intro js
  induction js with
  | nil => intro _; exact ⟨false, rfl⟩
  | cons j0 js ih =>
    intro hjs
    have hj0 : j0 < P.length := hjs j0 (List.mem_cons_self _ _)
    have ih1 := ih (fun j hj => hjs j (List.mem_cons_of_mem _ hj))
    have e1 : P[i]? = some P[i] := List.getElem?_eq_getElem hi
    have e2 : S[j0]? = some (S[j0]) := List.getElem?_eq_getElem (by omega)
    have e3 : P[j0]? = some P[j0] := List.getElem?_eq_getElem hj0
    have e4 : S[i]? = some (S[i]) := List.getElem?_eq_getElem (by omega)
    rw [reciprocityLoop]
    simp only [e1, e2, e3, e4]
    by_cases hn : P[i].Name = S[j0].Name
    · simp only [hn, if_true]
      by_cases hn2 : P[j0].Name = S[i].Name
      · exact ⟨true, by simp [hn2]⟩
      · simpa only [hn2, if_false] using ih1
    · simpa only [hn, if_false] using ih1

theorem isValidDrawFrom_total {P S : List Participant} (hlen : P.length ≤ S.length) :
    ∀ {is : List Nat}, (∀ i ∈ is, i < P.length) →
      ∃ b, isValidDrawFrom P S is = some b := by
  intro is
  induction is with
  | nil => intro _; exact ⟨true, rfl⟩
  | cons i0 is ih =>
    intro his
    have hi0 : i0 < P.length := his i0 (List.mem_cons_self _ _)
    have ih1 := ih (fun i hi => his i (List.mem_cons_of_mem _ hi))
    have e1 : P[i0]? = some P[i0] := List.getElem?_eq_getElem hi0
    have e2 : S[i0]? = some (S[i0]) := List.getElem?_eq_getElem (by omega)
    rw [isValidDrawFrom]
    simp only [e1, e2]
    by_cases hc : P[i0].Name = S[i0].Name ∨ canDraw P[i0] S[i0] = false
    · exact ⟨false, by simp only [hc, if_true]⟩
    · simp only [hc, if_false]
      obtain ⟨b, hb⟩ := reciprocityLoop_total hi0 hlen
        (fun j hj => List.mem_range.mp hj)
      rw [hb]
      cases b with
      | true => exact ⟨false, rfl⟩
      | false => exact ih1

/-- On a candidate at least as long as the participant list, `isValidDraw` returns a
boolean (no index is out of range). -/
theorem isValidDraw_total {P S : List Participant} (hlen : P.length ≤ S.length) :
    ∃ b, isValidDraw P S = some b :=
  isValidDrawFrom_total hlen (fun _ hi => List.mem_range.mp hi)

/-! ## Lemmas on the shuffle -/

/-- Overwriting position `i`, which held `a`, by `x` trades `a` for `x`. -/
theorem set_perm_cons {x a : Participant} :
    ∀ {l : List Participant} {i : Nat}, l[i]? = some a → List.Perm (a :: l.set i x) (x :: l) := by
  intro l
  induction l with
  | nil => intro i h; simp at h
  | cons h t ih =>
    intro i hi
    cases i with
    | zero =>
      simp only [List.getElem?_cons_zero, Option.some.injEq] at hi
      subst hi
      simpa using List.Perm.swap x h t
    | succ n =>
      simp only [List.getElem?_cons_succ] at hi
      simp only [List.set_cons_succ]
      exact ((List.Perm.swap h a (t.set n x)).trans ((ih hi).cons h)).trans
        (List.Perm.swap x h t)

theorem set_set_perm_of_getElem? {a b : Participant} :
    ∀ {l : List Participant} {i j : Nat}, l[i]? = some a → l[j]? = some b →
      List.Perm ((l.set i b).set j a) l := by
  intro l
  induction l with
  | nil => intro i j h; simp at h
  | cons h t ih =>
    intro i j hi hj
    cases i with
    | zero =>
      simp only [List.getElem?_cons_zero, Option.some.injEq] at hi
      subst hi
      cases j with
      | zero =>
        simp only [List.getElem?_cons_zero, Option.some.injEq] at hj
        subst hj
        simp
      | succ m =>
        simp only [List.getElem?_cons_succ] at hj
        simp only [List.set_cons_zero, List.set_cons_succ]
        exact set_perm_cons hj
    | succ n =>
      simp only [List.getElem?_cons_succ] at hi
      cases j with
      | zero =>
        simp only [List.getElem?_cons_zero, Option.some.injEq] at hj
        subst hj
        simp only [List.set_cons_zero, List.set_cons_succ]
        exact set_perm_cons hi
      | succ m =>
        simp only [List.getElem?_cons_succ] at hj
        simp only [List.set_cons_succ]
        exact (ih hi hj).cons h

/-- With both indices in range, `swap` succeeds and permutes the slice. -/
theorem swap_perm {slice : List Participant} {i j : Nat} (hi : i < slice.length)
    (hj : j < slice.length) : ∃ s, swap slice i j = some s ∧ List.Perm s slice := by
  have h1 : slice[i]? = some slice[i] := List.getElem?_eq_getElem hi
  have h2 : slice[j]? = some slice[j] := List.getElem?_eq_getElem hj
  refine ⟨(slice.set i slice[j]).set j slice[i], ?_, set_set_perm_of_getElem? h1 h2⟩
  simp [swap, h1, h2]

/-- A successful `swap` permutes the slice. -/
theorem swap_some_perm {slice s : List Participant} {i j : Nat}
    (h : swap slice i j = some s) : List.Perm s slice := by
  unfold swap at h
  cases hi : slice[i]? with
  | none => simp [hi] at h
  | some a =>
    cases hj : slice[j]? with
    | none => simp [hi, hj] at h
    | some b =>
      simp only [hi, hj, Option.some.injEq] at h
      rw [← h]
      exact set_set_perm_of_getElem? hi hj

/-- Any sequence of calls of the swap closure that does not panic permutes the slice. -/
theorem runSwaps_perm :
    ∀ (calls : List (Nat × Nat)) (slice s : List Participant),
      runSwaps slice calls = some s → List.Perm s slice := by
  intro calls
  induction calls with
  | nil =>
    intro slice s h
    simp only [runSwaps, Option.some.injEq] at h
    rw [h]
  | cons c calls ih =>
    intro slice s h
    obtain ⟨i, j⟩ := c
    rw [runSwaps] at h
    cases hs : swap slice i j with
    | none => simp [hs] at h
    | some s1 =>
      simp only [hs] at h
      exact (ih s1 s h).trans (swap_some_perm hs)

/-- The Fisher–Yates loop started at an index inside the slice never panics, consumes one
draw per round and permutes the slice. -/
theorem randShuffle_perm (src : Nat → Nat) :
    ∀ (i k : Nat) (slice : List Participant), i < slice.length →
      ∃ s, randShuffle src i k slice = some (s, k + i) ∧ List.Perm s slice := by
  intro i
  induction i with
  | zero => intro k slice _; exact ⟨slice, by simp [randShuffle], List.Perm.refl _⟩
  | succ n ih =>
    intro k slice hlt
    have hj : src k % (n + 2) < slice.length :=
      Nat.lt_of_lt_of_le (Nat.mod_lt _ (by omega)) (by omega)
    obtain ⟨s1, hs1, hp1⟩ := swap_perm hlt hj
    have hlen : n < s1.length := by rw [hp1.length_eq]; omega
    obtain ⟨s2, hs2, hp2⟩ := ih (k + 1) s1 hlen
    refine ⟨s2, ?_, hp2.trans hp1⟩
    rw [randShuffle, hs1]
    simp only [hs2]
    congr 2
    omega

/-- Go `shuffle` never panics and returns a permutation of its argument. -/
theorem shuffle_perm (src : Nat → Nat) (k : Nat) (slice : List Participant) :
    ∃ s, shuffle src k slice = some (s, k + (slice.length - 1)) ∧ List.Perm s slice := by
  cases slice with
  | nil => exact ⟨[], by simp [shuffle, randShuffle], List.Perm.refl _⟩
  | cons h t => exact randShuffle_perm src _ k (h :: t) (by simp)

/-- Copying over a destination of the same length yields the source. -/
theorem copySlice_eq {dst src : List Participant} (h : dst.length = src.length) :
    copySlice dst src = src := by
  simp [copySlice, h]

theorem makeSlice_length (n : Nat) : (makeSlice n).length = n := by
  simp [makeSlice]

/-! ## Lemmas on the matching loop -/

/-- The loop never panics, and what it returns is a permutation of the participants. -/
theorem secretSantaLoop_cases (P : List Participant) (src : Nat → Nat) :
    ∀ (fuel k : Nat) (sh : List Participant), sh.length = P.length →
      secretSantaLoop P src fuel k sh = LoopResult.running ∨
      ∃ S, secretSantaLoop P src fuel k sh = LoopResult.drawn S ∧ List.Perm S P ∧
        isValidDraw P S = some true := by
  intro fuel
  induction fuel with
  | zero => intro k sh _; exact Or.inl rfl
  | succ n ih =>
    intro k sh hlen
    obtain ⟨s, hs, hp⟩ := shuffle_perm src k (copySlice sh P)
    rw [copySlice_eq hlen] at hs hp
    rw [secretSantaLoop, copySlice_eq hlen, hs]
    simp only
    cases hv : isValidDraw P s with
    | none =>
      obtain ⟨b, hb⟩ := isValidDraw_total (Nat.le_of_eq hp.length_eq.symm)
      rw [hb] at hv; cases hv
    | some b =>
      cases b with
      | true => exact Or.inr ⟨s, rfl, hp, hv⟩
      | false => exact ih _ s hp.length_eq

/-- When every permutation of the participants is rejected, the loop is still running
after any number of iterations. -/
theorem secretSantaLoop_running {P : List Participant}
    (hrej : ∀ S, List.Perm S P → isValidDraw P S = some false) (src : Nat → Nat)
    (fuel k : Nat) (sh : List Participant) (hlen : sh.length = P.length) :
    secretSantaLoop P src fuel k sh = LoopResult.running := by
  rcases secretSantaLoop_cases P src fuel k sh hlen with h | ⟨S, _, hp, hv⟩
  · exact h
  · rw [hrej S hp] at hv; cases hv

/-! ## Small candidate lists -/

theorem perm_single_cases {a : Participant} {S : List Participant} (h : List.Perm S [a]) :
    S = [a] :=
  List.perm_singleton.mp h

theorem perm_pair_cases {a b : Participant} {S : List Participant}
    (h : List.Perm S [a, b]) : S = [a, b] ∨ S = [b, a] := by
  have hm := List.mem_permutations.mpr h
  simpa [List.permutations, List.permutationsAux, List.permutationsAux.rec,
    List.permutationsAux2] using hm

theorem perm_triple_cases {a b c : Participant} {S : List Participant}
    (h : List.Perm S [a, b, c]) :
    S = [a, b, c] ∨ S = [a, c, b] ∨ S = [b, a, c] ∨ S = [b, c, a] ∨ S = [c, a, b] ∨
      S = [c, b, a] := by
  have hm := List.mem_permutations.mpr h
  simp [List.permutations, List.permutationsAux, List.permutationsAux.rec,
    List.permutationsAux2] at hm
  tauto

/-- A candidate whose first entry has the name of the first participant is rejected. -/
theorem isValidDraw_head_self {p s : Participant} (P S : List Participant)
    (h : p.Name = s.Name) : isValidDraw (p :: P) (s :: S) = some false := by
  have hr : List.range (p :: P).length = 0 :: (List.range P.length).map Nat.succ := by
    simp [List.range_succ_eq_map]
  rw [isValidDraw, hr, isValidDrawFrom]
  simp [h]

/-- With one participant every permutation is rejected. -/
theorem isValidDraw_single {P : List Participant} (hP : P.length = 1) :
    ∀ S, List.Perm S P → isValidDraw P S = some false := by
  intro S hS
  obtain ⟨a, rfl⟩ := List.length_eq_one.mp hP
  rw [perm_single_cases hS]
  exact isValidDraw_head_self [] [] rfl

/-- The swap of two participants is rejected. -/
theorem isValidDraw_swap (a b : Participant) : isValidDraw [a, b] [b, a] = some false := by
  have hr : List.range [a, b].length = [0, 1] := rfl
  rw [isValidDraw, hr, isValidDrawFrom]
  by_cases hc : a.Name = b.Name ∨ canDraw a b = false
  · simp [hc]
  · have hn : a.Name ≠ b.Name := fun h => hc (Or.inl h)
    simp [hc, hr, reciprocityLoop, hn]

/-- With two participants every permutation is rejected. -/
theorem isValidDraw_pair {P : List Participant} (hP : P.length = 2) :
    ∀ S, List.Perm S P → isValidDraw P S = some false := by
  intro S hS
  obtain ⟨a, b, rfl⟩ := List.length_eq_two.mp hP
  rcases perm_pair_cases hS with rfl | rfl
  · exact isValidDraw_head_self [b] [b] rfl
  · exact isValidDraw_swap a b

/-! ## The claims -/

/-- C1 (exclusion respected), evaluated on the code: for the participants Alice (who must
not draw Bob), Bob and Carol, the candidate in which Alice draws Bob, Bob draws Carol and
Carol draws Alice is accepted by `isValidDraw`, although the name drawn at position 0 is on
the exclusion list of the giver at position 0; the matching loop returns that candidate at
its first iteration when every raw draw of the random source is 0. -/
theorem C1_exclusion_not_respected :
    isValidDraw [aliceNoBob, bob, carol] [bob, carol, aliceNoBob] = some true ∧
    bob.Name ∈ aliceNoBob.CannotDraw ∧
    specExclusionRespected [aliceNoBob, bob, carol] [bob, carol, aliceNoBob] = false ∧
    secretSantaDraw [aliceNoBob, bob, carol] (fun _ => 0) 1
      = LoopResult.drawn [bob, carol, aliceNoBob] := by
  decide

/-- C2 (anti-reciprocity): when `isValidDraw P S` returns true there are no positions `i`,
`j` with `P[i].Name == S[j].Name` and `P[j].Name == S[i].Name`; in particular no two
positions draw each other (`S[i]` is participant `j` and `S[j]` is participant `i`). -/
theorem C2_anti_reciprocity (P S : List Participant) (h : isValidDraw P S = some true) :
    (∀ (i j : Nat) (pi pj si sj : Participant),
        P[i]? = some pi → P[j]? = some pj → S[i]? = some si → S[j]? = some sj →
        ¬ (pi.Name = sj.Name ∧ pj.Name = si.Name)) ∧
    (∀ (i j : Nat) (pi pj : Participant),
        P[i]? = some pi → P[j]? = some pj → ¬ (S[i]? = some pj ∧ S[j]? = some pi)) := by
  have key : ∀ (i j : Nat) (pi pj si sj : Participant),
      P[i]? = some pi → P[j]? = some pj → S[i]? = some si → S[j]? = some sj →
      ¬ (pi.Name = sj.Name ∧ pj.Name = si.Name) := by
    intro i j pi pj si sj hpi hpj hsi hsj
    have hi : i < P.length := by
      rcases Nat.lt_or_ge i P.length with hlt | hge
      · exact hlt
      · rw [List.getElem?_eq_none hge] at hpi; cases hpi
    obtain ⟨p, s, hp, hs, _, _, hrec⟩ := isValidDraw_true h hi
    rw [hpi] at hp
    rw [hsi] at hs
    cases hp
    cases hs
    exact hrec j pj sj hpj hsj
  refine ⟨key, ?_⟩
  rintro i j pi pj hpi hpj ⟨hsi, hsj⟩
  exact key i j pi pj pj pi hpi hpj hsi hsj ⟨rfl, rfl⟩

/-- Witness of C2 on the 3-cycle Alice → Bob → Carol → Alice. -/
theorem C2_anti_reciprocity_witness :
    isValidDraw [alice, bob, carol] [bob, carol, alice] = some true ∧
    ((∀ (i j : Nat) (pi pj si sj : Participant),
        [alice, bob, carol][i]? = some pi → [alice, bob, carol][j]? = some pj →
        [bob, carol, alice][i]? = some si → [bob, carol, alice][j]? = some sj →
        ¬ (pi.Name = sj.Name ∧ pj.Name = si.Name)) ∧
    (∀ (i j : Nat) (pi pj : Participant),
        [alice, bob, carol][i]? = some pi → [alice, bob, carol][j]? = some pj →
        ¬ ([bob, carol, alice][i]? = some pj ∧ [bob, carol, alice][j]? = some pi))) :=
  ⟨by decide, C2_anti_reciprocity [alice, bob, carol] [bob, carol, alice] (by decide)⟩

/-- C3 (derangement, no self-draw): when `isValidDraw P S` returns true, `S[i].Name` differs
from `P[i].Name` at every position `i`; hence any assignment returned by the matching loop
of `secretSanta` has no fixed point.  This holds for every participant list, in particular
for the lists of `n ≥ 2` participants without exclusions. -/
theorem C3_no_self_draw (P S : List Participant) (h : isValidDraw P S = some true) :
    (∀ (i : Nat) (p s : Participant), P[i]? = some p → S[i]? = some s → s.Name ≠ p.Name) ∧
    (∀ (src : Nat → Nat) (fuel : Nat) (S1 : List Participant),
        secretSantaDraw P src fuel = LoopResult.drawn S1 →
        ∀ (i : Nat) (p s : Participant), P[i]? = some p → S1[i]? = some s →
          s.Name ≠ p.Name) := by
  have key : ∀ (S0 : List Participant), isValidDraw P S0 = some true →
      ∀ (i : Nat) (p s : Participant), P[i]? = some p → S0[i]? = some s →
        s.Name ≠ p.Name := by
    intro S0 h0 i p s hp hs
    have hi : i < P.length := by
      rcases Nat.lt_or_ge i P.length with hlt | hge
      · exact hlt
      · rw [List.getElem?_eq_none hge] at hp; cases hp
    obtain ⟨p1, s1, hp1, hs1, hne, _, _⟩ := isValidDraw_true h0 hi
    rw [hp] at hp1
    rw [hs] at hs1
    cases hp1
    cases hs1
    exact fun e => hne e.symm
  refine ⟨key S h, ?_⟩
  intro src fuel S1 hd
  rcases secretSantaLoop_cases P src fuel 0 (makeSlice P.length) (makeSlice_length _)
    with hrun | ⟨S2, hS2, _, hv⟩
  · rw [secretSantaDraw, hrun] at hd; cases hd
  · rw [secretSantaDraw, hS2] at hd
    have e : S2 = S1 := LoopResult.drawn.inj hd
    rw [← e]
    exact key S2 hv

/-- Witness of C3 on three participants without exclusions. -/
theorem C3_no_self_draw_witness :
    isValidDraw [alice, bob, carol] [carol, alice, bob] = some true ∧
    ((∀ (i : Nat) (p s : Participant),
        [alice, bob, carol][i]? = some p → [carol, alice, bob][i]? = some s →
        s.Name ≠ p.Name) ∧
    (∀ (src : Nat → Nat) (fuel : Nat) (S1 : List Participant),
        secretSantaDraw [alice, bob, carol] src fuel = LoopResult.drawn S1 →
        ∀ (i : Nat) (p s : Participant), [alice, bob, carol][i]? = some p →
          S1[i]? = some s → s.Name ≠ p.Name)) :=
  ⟨by decide, C3_no_self_draw [alice, bob, carol] [carol, alice, bob] (by decide)⟩

/-- C4 (permutation property): for every participant list, every outcome of the random
source and every destination slice of the same length, the candidate built by `copy` and
`shuffle` exists (no panic) and is a permutation of the participants: same length and same
number of occurrences of every element.  Hence the assignment returned by the matching loop
is a permutation of the participants, and when the participants are pairwise distinct each
of them occurs exactly once among the givers and exactly once among the recipients. -/
theorem C4_permutation (P dst : List Participant) (src : Nat → Nat) (k : Nat)
    (hdst : dst.length = P.length) :
    (∃ S, shuffle src k (copySlice dst P) = some (S, k + (P.length - 1)) ∧
        List.Perm S P ∧ S.length = P.length ∧ ∀ p, S.count p = P.count p) ∧
    (∀ (fuel : Nat) (S : List Participant),
        secretSantaDraw P src fuel = LoopResult.drawn S →
        List.Perm S P ∧ S.length = P.length ∧ (∀ p, S.count p = P.count p) ∧
        (P.Nodup → ∀ p ∈ P, P.count p = 1 ∧ S.count p = 1)) ∧
    (∀ (calls : List (Nat × Nat)) (S : List Participant),
        runSwaps (copySlice dst P) calls = some S →
        List.Perm S P ∧ S.length = P.length ∧ ∀ p, S.count p = P.count p) := by
  refine ⟨?_, ?_, ?_⟩
  · obtain ⟨S, hS, hp⟩ := shuffle_perm src k (copySlice dst P)
    rw [copySlice_eq hdst] at hS hp
    rw [copySlice_eq hdst]
    exact ⟨S, hS, hp, hp.length_eq, fun p => hp.count_eq p⟩
  · intro fuel S hd
    rcases secretSantaLoop_cases P src fuel 0 (makeSlice P.length) (makeSlice_length _)
      with hrun | ⟨S2, hS2, hp, _⟩
    · rw [secretSantaDraw, hrun] at hd; cases hd
    · rw [secretSantaDraw, hS2] at hd
      have e : S2 = S := LoopResult.drawn.inj hd
      rw [← e]
      refine ⟨hp, hp.length_eq, fun p => hp.count_eq p, ?_⟩
      intro hnd p hmem
      have h1 : P.count p = 1 := List.count_eq_one_of_mem hnd hmem
      exact ⟨h1, by rw [hp.count_eq p, h1]⟩
  · intro calls S hS
    have hp := runSwaps_perm calls _ S hS
    rw [copySlice_eq hdst] at hp
    exact ⟨hp, hp.length_eq, fun p => hp.count_eq p⟩

/-- Witness of C4 on three participants, with the freshly made destination slice. -/
theorem C4_permutation_witness :
    (makeSlice 3).length = [alice, bob, carol].length ∧
    ((∃ S, shuffle (fun _ => 0) 0 (copySlice (makeSlice 3) [alice, bob, carol])
          = some (S, 0 + ([alice, bob, carol].length - 1)) ∧
        List.Perm S [alice, bob, carol] ∧ S.length = [alice, bob, carol].length ∧
        ∀ p, S.count p = [alice, bob, carol].count p) ∧
    (∀ (fuel : Nat) (S : List Participant),
        secretSantaDraw [alice, bob, carol] (fun _ => 0) fuel = LoopResult.drawn S →
        List.Perm S [alice, bob, carol] ∧ S.length = [alice, bob, carol].length ∧
        (∀ p, S.count p = [alice, bob, carol].count p) ∧
        ([alice, bob, carol].Nodup →
          ∀ p ∈ [alice, bob, carol], [alice, bob, carol].count p = 1 ∧ S.count p = 1)) ∧
    (∀ (calls : List (Nat × Nat)) (S : List Participant),
        runSwaps (copySlice (makeSlice 3) [alice, bob, carol]) calls = some S →
        List.Perm S [alice, bob, carol] ∧ S.length = [alice, bob, carol].length ∧
        ∀ p, S.count p = [alice, bob, carol].count p)) :=
  ⟨by decide, C4_permutation [alice, bob, carol] (makeSlice 3) (fun _ => 0) 0 (by decide)⟩

/-- C5 (three participants): for three participants with pairwise distinct names and empty
exclusion lists, `isValidDraw` returns true on the two 3-cycles and false on the identity
and on the three permutations made of a 2-cycle and a fixed point; so among all
permutations of the list exactly the two 3-cycles are accepted. -/
theorem C5_three_participants (a b c : Participant)
    (hab : a.Name ≠ b.Name) (hac : a.Name ≠ c.Name) (hbc : b.Name ≠ c.Name)
    (ha : a.CannotDraw = []) (hb : b.CannotDraw = []) (hc : c.CannotDraw = []) :
    isValidDraw [a, b, c] [b, c, a] = some true ∧
    isValidDraw [a, b, c] [c, a, b] = some true ∧
    isValidDraw [a, b, c] [a, b, c] = some false ∧
    isValidDraw [a, b, c] [a, c, b] = some false ∧
    isValidDraw [a, b, c] [c, b, a] = some false ∧
    isValidDraw [a, b, c] [b, a, c] = some false ∧
    (∀ S, List.Perm S [a, b, c] →
      (isValidDraw [a, b, c] S = some true ↔ (S = [b, c, a] ∨ S = [c, a, b])) ∧
      (isValidDraw [a, b, c] S = some false ↔ ¬ (S = [b, c, a] ∨ S = [c, a, b]))) := by
  have hr : List.range [a, b, c].length = [0, 1, 2] := rfl
  have hba : b.Name ≠ a.Name := fun e => hab e.symm
  have hca : c.Name ≠ a.Name := fun e => hac e.symm
  have hcb : c.Name ≠ b.Name := fun e => hbc e.symm
  have e1 : isValidDraw [a, b, c] [b, c, a] = some true := by
    simp [isValidDraw, hr, isValidDrawFrom, reciprocityLoop, canDraw, ha, hb, hc, hab, hac,
      hbc, hba, hca, hcb]
  have e2 : isValidDraw [a, b, c] [c, a, b] = some true := by
    simp [isValidDraw, hr, isValidDrawFrom, reciprocityLoop, canDraw, ha, hb, hc, hab, hac,
      hbc, hba, hca, hcb]
  have e3 : isValidDraw [a, b, c] [a, b, c] = some false :=
    isValidDraw_head_self _ _ rfl
  have e4 : isValidDraw [a, b, c] [a, c, b] = some false :=
    isValidDraw_head_self _ _ rfl
  have e5 : isValidDraw [a, b, c] [c, b, a] = some false := by
    simp [isValidDraw, hr, isValidDrawFrom, reciprocityLoop, canDraw, ha, hb, hc, hab, hac,
      hbc, hba, hca, hcb]
  have e6 : isValidDraw [a, b, c] [b, a, c] = some false := by
    simp [isValidDraw, hr, isValidDrawFrom, reciprocityLoop, canDraw, ha, hb, hc, hab, hac,
      hbc, hba, hca, hcb]
  have nbc : b ≠ c := fun e => hbc (congrArg Participant.Name e)
  have nab : a ≠ b := fun e => hab (congrArg Participant.Name e)
  have nac : a ≠ c := fun e => hac (congrArg Participant.Name e)
  refine ⟨e1, e2, e3, e4, e5, e6, ?_⟩
  intro S hS
  rcases perm_triple_cases hS with rfl | rfl | rfl | rfl | rfl | rfl
  · simp [e3, nab, nac, nbc, Ne.symm nab, Ne.symm nac, Ne.symm nbc]
  · simp [e4, nab, nac, nbc, Ne.symm nab, Ne.symm nac, Ne.symm nbc]
  · simp [e6, nab, nac, nbc, Ne.symm nab, Ne.symm nac, Ne.symm nbc]
  · simp [e1]
  · simp [e2]
  · simp [e5, nab, nac, nbc, Ne.symm nab, Ne.symm nac, Ne.symm nbc]

/-- Witness of C5 on Alice, Bob and Carol. -/
theorem C5_three_participants_witness :
    isValidDraw [alice, bob, carol] [bob, carol, alice] = some true ∧
    isValidDraw [alice, bob, carol] [carol, alice, bob] = some true ∧
    isValidDraw [alice, bob, carol] [alice, bob, carol] = some false ∧
    isValidDraw [alice, bob, carol] [alice, carol, bob] = some false ∧
    isValidDraw [alice, bob, carol] [carol, bob, alice] = some false ∧
    isValidDraw [alice, bob, carol] [bob, alice, carol] = some false ∧
    (∀ S, List.Perm S [alice, bob, carol] →
      (isValidDraw [alice, bob, carol] S = some true ↔
        (S = [bob, carol, alice] ∨ S = [carol, alice, bob])) ∧
      (isValidDraw [alice, bob, carol] S = some false ↔
        ¬ (S = [bob, carol, alice] ∨ S = [carol, alice, bob]))) :=
  C5_three_participants alice bob carol (by decide) (by decide) (by decide) rfl rfl rfl

/-- C6 (completeness of the validity check), evaluated on the code: for the participants
Alice, Bob (who must not draw Alice) and Carol, the permutation in which Alice draws Bob,
Bob draws Carol and Carol draws Alice satisfies the three invariants of the data model, yet
`isValidDraw` returns false on it, and the matching loop, which builds exactly this
candidate when every raw draw is 0, discards it and keeps running. -/
theorem C6_valid_candidate_rejected :
    List.Perm [bobNoAlice, carol, alice] [alice, bobNoAlice, carol] ∧
    specNoSelfDraw [alice, bobNoAlice, carol] [bobNoAlice, carol, alice] = true ∧
    specExclusionRespected [alice, bobNoAlice, carol] [bobNoAlice, carol, alice] = true ∧
    specNoReciprocalPair [alice, bobNoAlice, carol] [bobNoAlice, carol, alice] = true ∧
    specInvariants [alice, bobNoAlice, carol] [bobNoAlice, carol, alice] = true ∧
    isValidDraw [alice, bobNoAlice, carol] [bobNoAlice, carol, alice] = some false ∧
    shuffle (fun _ => 0) 0 (copySlice (makeSlice 3) [alice, bobNoAlice, carol])
      = some ([bobNoAlice, carol, alice], 2) ∧
    secretSantaDraw [alice, bobNoAlice, carol] (fun _ => 0) 1 = LoopResult.running := by
  decide

/-- C7, counterexample: the empty participant list has `n ≤ 1`, its only permutation is the
empty list, and `isValidDraw` returns true on it; the matching loop exits at its first
iteration with the empty assignment. -/
theorem C7_empty_list_accepted :
    ([] : List Participant).length ≤ 1 ∧
    List.Perm ([] : List Participant) [] ∧
    isValidDraw [] [] = some true ∧
    secretSantaDraw [] (fun _ => 0) 1 = LoopResult.drawn [] := by
  decide

/-- C7, amended (degenerate sizes): with exactly one participant, `isValidDraw` returns
false on every permutation of the list, so the matching loop is still running after any
number of iterations, whatever the random source; with no participant, `isValidDraw`
returns true on the only permutation and the loop exits at its first iteration with the
empty assignment. -/
theorem C7_degenerate_sizes (P : List Participant) :
    (P.length = 1 →
      (∀ S, List.Perm S P → isValidDraw P S = some false) ∧
      (∀ (src : Nat → Nat) (fuel : Nat), secretSantaDraw P src fuel = LoopResult.running)) ∧
    (P.length = 0 →
      (∀ S, List.Perm S P → isValidDraw P S = some true) ∧
      (∀ (src : Nat → Nat) (fuel : Nat),
        secretSantaDraw P src (fuel + 1) = LoopResult.drawn [])) := by
  constructor
  · intro h1
    exact ⟨isValidDraw_single h1, fun src fuel =>
      secretSantaLoop_running (isValidDraw_single h1) src fuel 0 _ (makeSlice_length _)⟩
  · intro h0
    have hP : P = [] := List.length_eq_zero.mp h0
    subst hP
    refine ⟨?_, fun src fuel => rfl⟩
    intro S hS
    rw [List.perm_nil.mp hS]
    rfl

/-- Witness of C7 (amended) on the one-participant list and on the empty list. -/
theorem C7_degenerate_sizes_witness :
    ([alice].length = 1 ∧
      (∀ S, List.Perm S [alice] → isValidDraw [alice] S = some false) ∧
      (∀ (src : Nat → Nat) (fuel : Nat),
        secretSantaDraw [alice] src fuel = LoopResult.running)) ∧
    (([] : List Participant).length = 0 ∧
      (∀ S, List.Perm S [] → isValidDraw [] S = some true) ∧
      (∀ (src : Nat → Nat) (fuel : Nat),
        secretSantaDraw [] src (fuel + 1) = LoopResult.drawn [])) :=
  ⟨⟨rfl, (C7_degenerate_sizes [alice]).1 rfl⟩, ⟨rfl, (C7_degenerate_sizes []).2 rfl⟩⟩

/-- C8, counterexample: for the one-participant list and for the list of two participants
who exclude each other, with the random source whose raw draws are all 0, there is no
number of iterations after which the matching loop has stopped: it neither returns nor
reports anything. -/
theorem C8_loop_never_stops :
    (¬ ∃ fuel, secretSantaDraw [alice] (fun _ => 0) fuel ≠ LoopResult.running) ∧
    (¬ ∃ fuel, secretSantaDraw [aliceNoBob, bobNoAlice] (fun _ => 0) fuel
        ≠ LoopResult.running) := by
  constructor
  · rintro ⟨fuel, hne⟩
    have hrej : ∀ S, List.Perm S [alice] → isValidDraw [alice] S = some false :=
      isValidDraw_single rfl
    exact hne (secretSantaLoop_running hrej _ fuel 0 _ (makeSlice_length _))
  · rintro ⟨fuel, hne⟩
    have hrej : ∀ S, List.Perm S [aliceNoBob, bobNoAlice] →
        isValidDraw [aliceNoBob, bobNoAlice] S = some false :=
      isValidDraw_pair rfl
    exact hne (secretSantaLoop_running hrej _ fuel 0 _ (makeSlice_length _))

/-- C8, amended (infeasible inputs): given one participant, or two participants who each
exclude the other, `isValidDraw` rejects every permutation of the list, and for every
outcome of the random source the matching loop of `secretSanta` is still running after any
number of iterations: it does not terminate and reports nothing. -/
theorem C8_infeasible_loop_runs_forever (P : List Participant)
    (h : P.length = 1 ∨
      ∃ a b, P = [a, b] ∧ b.Name ∈ a.CannotDraw ∧ a.Name ∈ b.CannotDraw) :
    (∀ S, List.Perm S P → isValidDraw P S = some false) ∧
    (∀ (src : Nat → Nat) (fuel : Nat), secretSantaDraw P src fuel = LoopResult.running) := by
  have hrej : ∀ S, List.Perm S P → isValidDraw P S = some false := by
    rcases h with h1 | ⟨a, b, rfl, _, _⟩
    · exact isValidDraw_single h1
    · exact isValidDraw_pair rfl
  exact ⟨hrej, fun src fuel =>
    secretSantaLoop_running hrej src fuel 0 _ (makeSlice_length _)⟩

/-- Witness of C8 (amended) on Alice and Bob who exclude each other. -/
theorem C8_infeasible_loop_runs_forever_witness :
    ([aliceNoBob, bobNoAlice].length = 1 ∨
      ∃ a b, [aliceNoBob, bobNoAlice] = [a, b] ∧ b.Name ∈ a.CannotDraw ∧
        a.Name ∈ b.CannotDraw) ∧
    ((∀ S, List.Perm S [aliceNoBob, bobNoAlice] →
        isValidDraw [aliceNoBob, bobNoAlice] S = some false) ∧
    (∀ (src : Nat → Nat) (fuel : Nat),
        secretSantaDraw [aliceNoBob, bobNoAlice] src fuel = LoopResult.running)) :=
  ⟨Or.inr ⟨aliceNoBob, bobNoAlice, rfl, by decide, by decide⟩,
    C8_infeasible_loop_runs_forever [aliceNoBob, bobNoAlice]
      (Or.inr ⟨aliceNoBob, bobNoAlice, rfl, by decide, by decide⟩)⟩

/-- C9 (direction of the exclusion check as implemented): when `isValidDraw P S` returns
true, at every position `i` the giver's name `P[i].Name` is not in `S[i].CannotDraw`;
`canDraw participant drawn` is false exactly when `drawn.CannotDraw` contains
`participant.Name`, and it depends on `participant` only through its name (it never reads
`participant.CannotDraw`). -/
theorem C9_exclusion_direction (P S : List Participant) :
    (isValidDraw P S = some true →
      ∀ (i : Nat) (p s : Participant), P[i]? = some p → S[i]? = some s →
        p.Name ∉ s.CannotDraw) ∧
    (∀ participant drawn : Participant,
      canDraw participant drawn = false ↔ participant.Name ∈ drawn.CannotDraw) ∧
    (∀ participant other drawn : Participant, participant.Name = other.Name →
      canDraw participant drawn = canDraw other drawn) := by
  have hcd : ∀ participant drawn : Participant,
      canDraw participant drawn = false ↔ participant.Name ∈ drawn.CannotDraw := by
    intro participant drawn
    simp [canDraw]
  refine ⟨?_, hcd, ?_⟩
  · intro h i p s hp hs hmem
    have hi : i < P.length := by
      rcases Nat.lt_or_ge i P.length with hlt | hge
      · exact hlt
      · rw [List.getElem?_eq_none hge] at hp; cases hp
    obtain ⟨p1, s1, hp1, hs1, _, hc, _⟩ := isValidDraw_true h hi
    rw [hp] at hp1
    rw [hs] at hs1
    cases hp1
    cases hs1
    rw [(hcd p s).mpr hmem] at hc
    cases hc
  · intro participant other drawn hn
    simp [canDraw, hn]

/-- Witness of C9 on a draw accepted although the giver at position 0 excludes the drawn
name. -/
theorem C9_exclusion_direction_witness :
    isValidDraw [aliceNoBob, bob, carol] [bob, carol, aliceNoBob] = some true ∧
    (∀ (i : Nat) (p s : Participant), [aliceNoBob, bob, carol][i]? = some p →
      [bob, carol, aliceNoBob][i]? = some s → p.Name ∉ s.CannotDraw) ∧
    (alice.Name = aliceNoBob.Name ∧ canDraw alice bob = canDraw aliceNoBob bob) :=
  ⟨by decide,
    (C9_exclusion_direction [aliceNoBob, bob, carol] [bob, carol, aliceNoBob]).1 (by decide),
    rfl,
    (C9_exclusion_direction [aliceNoBob, bob, carol] [bob, carol, aliceNoBob]).2.2
      alice aliceNoBob bob rfl⟩

/-- C10 (two participants are always infeasible): for every list of exactly two
participants, whatever their names and exclusion lists, `isValidDraw` returns false on
every permutation of the list (the identity has a self-draw, the swap is a reciprocal
pair); hence for every outcome of the random source the matching loop of `secretSanta` is
still running after any number of iterations. -/
theorem C10_two_participants (P : List Participant) (h : P.length = 2) :
    (∀ S, List.Perm S P → isValidDraw P S = some false) ∧
    (∀ (src : Nat → Nat) (fuel : Nat), secretSantaDraw P src fuel = LoopResult.running) :=
  ⟨isValidDraw_pair h, fun src fuel =>
    secretSantaLoop_running (isValidDraw_pair h) src fuel 0 _ (makeSlice_length _)⟩

/-- Witness of C10 on Alice and Bob without exclusions. -/
theorem C10_two_participants_witness :
    [alice, bob].length = 2 ∧
    ((∀ S, List.Perm S [alice, bob] → isValidDraw [alice, bob] S = some false) ∧
    (∀ (src : Nat → Nat) (fuel : Nat),
        secretSantaDraw [alice, bob] src fuel = LoopResult.running)) :=
  ⟨rfl, C10_two_participants [alice, bob] rfl⟩

end SecretSanta
